import Mathlib

/-!
Verification of the music-library pipeline (mp3_meta_enricher.py,
music_downloader.py, music_renamer.py) against its specification.

The Python source is shallowly embedded: strings are Lean `String`s (lists of
characters), the filesystem is an association list from paths to files, the
processed ledger is a list of path strings with set semantics, and fallible
steps (`os.rename` raising, provider exceptions) are modelled with `Except`
and explicit fault oracles.
-/

namespace MusicPipeline

/-! ### Character predicates

`pyIsSpace` models the set of characters Python's `str.split()` /
`str.strip()` / the regex class `\s` treat as whitespace (the Unicode
whitespace set used by CPython).  `charAscii` models `str.isascii` /
`ord(c) < 128`. -/

def pyIsSpace (c : Char) : Bool :=
  let n := c.toNat
  n = 0x20 || n = 0x9 || n = 0xa || n = 0xb || n = 0xc || n = 0xd ||
  (0x1c ≤ n && n ≤ 0x1f) || n = 0x85 || n = 0xa0 || n = 0x1680 ||
  (0x2000 ≤ n && n ≤ 0x200a) || n = 0x2028 || n = 0x2029 ||
  n = 0x202f || n = 0x205f || n = 0x3000

def charAscii (c : Char) : Bool := c.toNat < 128

/-- The character class `[A-Za-z]` of the regex in `clean_filename`. -/
def isAsciiLetterB (c : Char) : Bool :=
  ('A' ≤ c && c ≤ 'Z') || ('a' ≤ c && c ≤ 'z')

/-- Characters kept by `re.sub(r'[^A-Za-z\s]', '', name)`. -/
def keepChar (c : Char) : Bool := isAsciiLetterB c || pyIsSpace c

theorem le_char_iff {a b : Char} : a ≤ b ↔ a.toNat ≤ b.toNat := by
  rfl

theorem letter_toNat {c : Char} (h : isAsciiLetterB c = true) :
    (65 ≤ c.toNat ∧ c.toNat ≤ 90) ∨ (97 ≤ c.toNat ∧ c.toNat ≤ 122) := by
  simp only [isAsciiLetterB, Bool.or_eq_true, Bool.and_eq_true, decide_eq_true_eq] at h
  rcases h with ⟨h1, h2⟩ | ⟨h1, h2⟩
  · exact Or.inl ⟨le_char_iff.mp h1, le_char_iff.mp h2⟩
  · exact Or.inr ⟨le_char_iff.mp h1, le_char_iff.mp h2⟩

theorem letter_not_space {c : Char} (h : isAsciiLetterB c = true) :
    pyIsSpace c = false := by
  have hn := letter_toNat h
  simp only [pyIsSpace, Bool.or_eq_false_iff, Bool.and_eq_false_iff,
    decide_eq_false_iff_not, Nat.not_le]
  omega

theorem letter_ascii {c : Char} (h : isAsciiLetterB c = true) :
    charAscii c = true := by
  have hn := letter_toNat h
  simp only [charAscii, decide_eq_true_eq]
  omega

theorem letter_ne_dot {c : Char} (h : isAsciiLetterB c = true) : c ≠ '.' := by
  have hn := letter_toNat h
  intro he
  subst he
  simp at hn

theorem space_ne_dot {c : Char} (h : pyIsSpace c = true) : c ≠ '.' := by
  intro he
  subst he
  simp [pyIsSpace] at h

theorem keep_of_letter {c : Char} (h : isAsciiLetterB c = true) :
    keepChar c = true := by
  simp [keepChar, h]

/-! ### Python `str.split()` (split on whitespace runs, dropping empties) -/

def pySplitAux : List Char → List Char → List (List Char)
  | [], acc => if acc.isEmpty then [] else [acc.reverse]
  | c :: rest, acc =>
    if pyIsSpace c then
      if acc.isEmpty then pySplitAux rest [] else acc.reverse :: pySplitAux rest []
    else pySplitAux rest (c :: acc)

def pySplit (l : List Char) : List (List Char) := pySplitAux l []

/-! ### Python `' '.join(tokens)` -/

def joinSp : List (List Char) → List Char
  | [] => []
  | t :: ts =>
    match ts with
    | [] => t
    | _ :: _ => t ++ ' ' :: joinSp ts

/-! ### Python `str.strip()` -/

def pyStrip (l : List Char) : List Char :=
  ((l.dropWhile pyIsSpace).reverse.dropWhile pyIsSpace).reverse

/-! Lemmas about `pySplit`, `joinSp`, `pyStrip`. -/

theorem pySplitAux_tok_nonempty :
    ∀ (l acc : List Char), ∀ tok ∈ pySplitAux l acc, tok ≠ [] := by
  intro l
  induction l with
  | nil =>
    intro acc tok htok
    simp only [pySplitAux] at htok
    split at htok
    · simp at htok
    · rename_i hne
      simp only [List.mem_singleton] at htok
      subst htok
      simp only [ne_eq, List.reverse_eq_nil_iff]
      intro h
      simp [h] at hne
  | cons c rest ih =>
    intro acc tok htok
    simp only [pySplitAux] at htok
    split at htok
    · split at htok
      · exact ih [] tok htok
      · rename_i hne
        rcases List.mem_cons.mp htok with h | h
        · subst h
          simp only [ne_eq, List.reverse_eq_nil_iff]
          intro h
          simp [h] at hne
        · exact ih [] tok h
    · exact ih (c :: acc) tok htok

theorem pySplitAux_tok_mem :
    ∀ (l acc : List Char), (∀ c ∈ acc, pyIsSpace c = false) →
      ∀ tok ∈ pySplitAux l acc, ∀ c ∈ tok, (c ∈ l ∨ c ∈ acc) ∧ pyIsSpace c = false := by
  intro l
  induction l with
  | nil =>
    intro acc hacc tok htok c hc
    simp only [pySplitAux] at htok
    split at htok
    · simp at htok
    · simp only [List.mem_singleton] at htok
      subst htok
      rw [List.mem_reverse] at hc
      exact ⟨Or.inr hc, hacc c hc⟩
  | cons x rest ih =>
    intro acc hacc tok htok c hc
    simp only [pySplitAux] at htok
    split at htok
    · rename_i hx
      have hrec : tok ∈ pySplitAux rest [] → (c ∈ x :: rest ∨ c ∈ acc) ∧ pyIsSpace c = false := by
        intro h
        have := ih [] (by simp) tok h c hc
        rcases this with ⟨h1, h2⟩
        rcases h1 with h1 | h1
        · exact ⟨Or.inl (List.mem_cons_of_mem _ h1), h2⟩
        · simp at h1
      split at htok
      · exact hrec htok
      · rcases List.mem_cons.mp htok with h | h
        · subst h
          rw [List.mem_reverse] at hc
          exact ⟨Or.inr hc, hacc c hc⟩
        · exact hrec h
    · rename_i hx
      have hacc' : ∀ c ∈ x :: acc, pyIsSpace c = false := by
        intro d hd
        rcases List.mem_cons.mp hd with h | h
        · subst h
          exact Bool.eq_false_iff.mpr hx
        · exact hacc d h
      have := ih (x :: acc) hacc' tok htok c hc
      rcases this with ⟨h1, h2⟩
      rcases h1 with h1 | h1
      · exact ⟨Or.inl (List.mem_cons_of_mem _ h1), h2⟩
      · rcases List.mem_cons.mp h1 with h | h
        · subst h
          exact ⟨Or.inl (List.mem_cons_self _ _), h2⟩
        · exact ⟨Or.inr h, h2⟩

theorem pySplit_tok_mem (l : List Char) :
    ∀ tok ∈ pySplit l, ∀ c ∈ tok, c ∈ l ∧ pyIsSpace c = false := by
  intro tok htok c hc
  have := pySplitAux_tok_mem l [] (by simp) tok htok c hc
  rcases this with ⟨h1, h2⟩
  rcases h1 with h1 | h1
  · exact ⟨h1, h2⟩
  · simp at h1

theorem pySplitAux_append (t : List Char) (ht : ∀ c ∈ t, pyIsSpace c = false) :
    ∀ (l acc : List Char), pySplitAux (t ++ l) acc = pySplitAux l (t.reverse ++ acc) := by
  induction t with
  | nil => intro l acc; simp
  | cons c t' ih =>
    intro l acc
    have hc : pyIsSpace c = false := ht c (List.mem_cons_self _ _)
    have h1 : pySplitAux ((c :: t') ++ l) acc = pySplitAux (t' ++ l) (c :: acc) := by
      show pySplitAux (c :: (t' ++ l)) acc = _
      simp [pySplitAux, hc]
    rw [h1, ih (fun d hd => ht d (List.mem_cons_of_mem _ hd)) l (c :: acc)]
    simp [List.reverse_cons, List.append_assoc]

theorem pySplit_joinSp (ts : List (List Char))
    (h1 : ∀ t ∈ ts, t ≠ [])
    (h2 : ∀ t ∈ ts, ∀ c ∈ t, pyIsSpace c = false) :
    pySplit (joinSp ts) = ts := by
  induction ts with
  | nil => rfl
  | cons t ts ih =>
    cases ts with
    | nil =>
      have hne : t ≠ [] := h1 t (List.mem_cons_self _ _)
      have hsp : ∀ c ∈ t, pyIsSpace c = false := h2 t (List.mem_cons_self _ _)
      show pySplitAux (joinSp [t]) [] = [t]
      have : joinSp [t] = t ++ ([] : List Char) := by simp [joinSp]
      rw [this, pySplitAux_append t hsp [] []]
      simp only [pySplitAux, List.append_nil]
      rw [if_neg (by simp [List.isEmpty_iff, hne])]
      simp
    | cons t₂ ts' =>
      have hne : t ≠ [] := h1 t (List.mem_cons_self _ _)
      have hsp : ∀ c ∈ t, pyIsSpace c = false := h2 t (List.mem_cons_self _ _)
      show pySplitAux (joinSp (t :: t₂ :: ts')) [] = t :: t₂ :: ts'
      have hj : joinSp (t :: t₂ :: ts') = t ++ (' ' :: joinSp (t₂ :: ts')) := rfl
      rw [hj, pySplitAux_append t hsp _ []]
      simp only [pySplitAux, List.append_nil]
      rw [if_pos (by decide)]
      rw [if_neg (by simp [List.isEmpty_iff, hne])]
      rw [List.reverse_reverse]
      have ihr := ih (fun u hu => h1 u (List.mem_cons_of_mem _ hu))
        (fun u hu => h2 u (List.mem_cons_of_mem _ hu))
      rw [show pySplitAux (joinSp (t₂ :: ts')) [] = pySplit (joinSp (t₂ :: ts')) from rfl, ihr]

theorem joinSp_mem :
    ∀ (ts : List (List Char)), ∀ c ∈ joinSp ts, c = ' ' ∨ ∃ t ∈ ts, c ∈ t := by
  intro ts
  induction ts with
  | nil => intro c hc; simp [joinSp] at hc
  | cons t ts ih =>
    cases ts with
    | nil =>
      intro c hc
      simp only [joinSp] at hc
      exact Or.inr ⟨t, (List.mem_cons_self _ _), hc⟩
    | cons t₂ ts' =>
      intro c hc
      have hj : joinSp (t :: t₂ :: ts') = t ++ (' ' :: joinSp (t₂ :: ts')) := rfl
      rw [hj] at hc
      rcases List.mem_append.mp hc with h | h
      · exact Or.inr ⟨t, (List.mem_cons_self _ _), h⟩
      · rcases List.mem_cons.mp h with h | h
        · exact Or.inl h
        · rcases ih c h with h' | ⟨u, hu, hcu⟩
          · exact Or.inl h'
          · exact Or.inr ⟨u, List.mem_cons_of_mem _ hu, hcu⟩

theorem joinSp_ne_nil (ts : List (List Char)) (hts : ts ≠ [])
    (h1 : ∀ t ∈ ts, t ≠ []) : joinSp ts ≠ [] := by
  cases ts with
  | nil => exact absurd rfl hts
  | cons t ts =>
    cases ts with
    | nil =>
      simpa [joinSp] using h1 t (List.mem_cons_self _ _)
    | cons t₂ ts' =>
      have hj : joinSp (t :: t₂ :: ts') = t ++ (' ' :: joinSp (t₂ :: ts')) := rfl
      rw [hj]
      simp

theorem dropWhile_eq_self_of_ne_nil {l : List Char}
    (hl : l ≠ []) (hh : ∀ c ∈ l, l.head? = some c → pyIsSpace c = false) :
    l.dropWhile pyIsSpace = l := by
  cases l with
  | nil => rfl
  | cons c r =>
    have : pyIsSpace c = false := hh c (List.mem_cons_self _ _) rfl
    simp [List.dropWhile_cons_of_neg, this]

theorem dropWhile_length_le (p : Char → Bool) :
    ∀ (l : List Char), (l.dropWhile p).length ≤ l.length := by
  intro l
  induction l with
  | nil => simp
  | cons x r ih =>
    rw [List.dropWhile_cons]
    split
    · exact Nat.le_succ_of_le ih
    · exact Nat.le_refl _

theorem head_not_space_of_dropWhile_eq {l : List Char}
    (h : l.dropWhile pyIsSpace = l) : ∀ c r, l = c :: r → pyIsSpace c = false := by
  intro c r hl
  subst hl
  by_contra hc
  rw [Bool.not_eq_false] at hc
  rw [List.dropWhile_cons_of_pos hc] at h
  have h2 := congrArg List.length h
  have hle := dropWhile_length_le pyIsSpace r
  simp at h2
  omega

/-- `joinSp` of good tokens starts with a non-space character and
dropping leading whitespace is a no-op. -/
theorem dropWhile_joinSp (ts : List (List Char))
    (h1 : ∀ t ∈ ts, t ≠ [])
    (h2 : ∀ t ∈ ts, ∀ c ∈ t, pyIsSpace c = false) :
    (joinSp ts).dropWhile pyIsSpace = joinSp ts := by
  cases ts with
  | nil => rfl
  | cons t ts =>
    have hne : t ≠ [] := h1 t (List.mem_cons_self _ _)
    obtain ⟨c, t', ht⟩ := List.exists_cons_of_ne_nil hne
    have hc : pyIsSpace c = false := h2 t (List.mem_cons_self _ _) c (by rw [ht]; exact (List.mem_cons_self _ _))
    cases ts with
    | nil =>
      simp only [joinSp, ht]
      simp [List.dropWhile_cons_of_neg, hc]
    | cons t₂ ts' =>
      have hj : joinSp (t :: t₂ :: ts') = t ++ (' ' :: joinSp (t₂ :: ts')) := rfl
      rw [hj, ht]
      simp [List.dropWhile_cons_of_neg, hc]

theorem dropWhile_reverse_joinSp (ts : List (List Char))
    (h1 : ∀ t ∈ ts, t ≠ [])
    (h2 : ∀ t ∈ ts, ∀ c ∈ t, pyIsSpace c = false) :
    (joinSp ts).reverse.dropWhile pyIsSpace = (joinSp ts).reverse := by
  induction ts with
  | nil => rfl
  | cons t ts ih =>
    have hne : t ≠ [] := h1 t (List.mem_cons_self _ _)
    cases ts with
    | nil =>
      have hrev : t.reverse ≠ [] := by simpa using hne
      obtain ⟨c, r, hr⟩ := List.exists_cons_of_ne_nil hrev
      have hcmem : c ∈ t := by
        rw [← List.mem_reverse, hr]; exact (List.mem_cons_self _ _)
      have hc : pyIsSpace c = false := h2 t (List.mem_cons_self _ _) c hcmem
      show t.reverse.dropWhile pyIsSpace = t.reverse
      rw [hr]
      simp [List.dropWhile_cons_of_neg, hc]
    | cons t₂ ts' =>
      have ihr := ih (fun u hu => h1 u (List.mem_cons_of_mem _ hu))
        (fun u hu => h2 u (List.mem_cons_of_mem _ hu))
      have hj : joinSp (t :: t₂ :: ts') = t ++ (' ' :: joinSp (t₂ :: ts')) := rfl
      have hjnn : joinSp (t₂ :: ts') ≠ [] :=
        joinSp_ne_nil _ (by simp) (fun u hu => h1 u (List.mem_cons_of_mem _ hu))
      have hrevnn : (joinSp (t₂ :: ts')).reverse ≠ [] := by simpa using hjnn
      obtain ⟨c, r, hr⟩ := List.exists_cons_of_ne_nil hrevnn
      have hc : pyIsSpace c = false :=
        head_not_space_of_dropWhile_eq ihr c r hr
      rw [hj]
      rw [List.reverse_append, List.reverse_cons, hr]
      show ((c :: r) ++ [' '] ++ t.reverse).dropWhile pyIsSpace = (c :: r) ++ [' '] ++ t.reverse
      simp only [List.cons_append]
      simp [List.dropWhile_cons_of_neg, hc]

theorem pyStrip_joinSp (ts : List (List Char))
    (h1 : ∀ t ∈ ts, t ≠ [])
    (h2 : ∀ t ∈ ts, ∀ c ∈ t, pyIsSpace c = false) :
    pyStrip (joinSp ts) = joinSp ts := by
  unfold pyStrip
  rw [dropWhile_joinSp ts h1 h2, dropWhile_reverse_joinSp ts h1 h2, List.reverse_reverse]

theorem mem_of_mem_dropWhile {l : List Char} {c : Char}
    (h : c ∈ l.dropWhile pyIsSpace) : c ∈ l := by
  induction l with
  | nil => simp at h
  | cons x r ih =>
    rw [List.dropWhile_cons] at h
    split at h
    · exact List.mem_cons_of_mem _ (ih h)
    · exact h

theorem mem_of_mem_pyStrip {l : List Char} {c : Char} (h : c ∈ pyStrip l) : c ∈ l := by
  unfold pyStrip at h
  rw [List.mem_reverse] at h
  have h1 := mem_of_mem_dropWhile h
  rw [List.mem_reverse] at h1
  exact mem_of_mem_dropWhile h1

/-! ### `os.path.splitext`

CPython splits a filename at the last dot, provided a non-dot character
occurs before that dot (so leading-dot files such as `.bashrc` have no
extension). -/

def lastIdxOf (c : Char) : List Char → Option Nat
  | [] => none
  | x :: xs =>
    match lastIdxOf c xs with
    | some i => some (i + 1)
    | none => if x = c then some 0 else none

def splitext (l : List Char) : List Char × List Char :=
  match lastIdxOf '.' l with
  | none => (l, [])
  | some i =>
    if (l.take i).any (fun c => c != '.') then (l.take i, l.drop i) else (l, [])

theorem lastIdxOf_eq_none_iff (c : Char) :
    ∀ (l : List Char), lastIdxOf c l = none ↔ c ∉ l := by
  intro l
  induction l with
  | nil => simp [lastIdxOf]
  | cons x xs ih =>
    simp only [lastIdxOf]
    cases h : lastIdxOf c xs with
    | some i =>
      have hmem : c ∈ xs := by
        by_contra hn
        rw [← ih] at hn
        rw [h] at hn
        exact Option.noConfusion hn
      simp [List.mem_cons, hmem]
    | none =>
      have hnm : c ∉ xs := ih.mp h
      by_cases hx : x = c
      · subst hx
        simp
      · simp [hx, List.mem_cons, hnm, Ne.symm hx]

theorem lastIdxOf_cons (c x : Char) (xs : List Char) :
    lastIdxOf c (x :: xs) =
      match lastIdxOf c xs with
      | some i => some (i + 1)
      | none => if x = c then some 0 else none := rfl

theorem lastIdxOf_append_cons (base tail : List Char) (h : '.' ∉ tail) :
    lastIdxOf '.' (base ++ '.' :: tail) = some base.length := by
  induction base with
  | nil =>
    rw [List.nil_append, lastIdxOf_cons, (lastIdxOf_eq_none_iff '.' tail).mpr h]
    simp
  | cons b bs ih =>
    rw [List.cons_append, lastIdxOf_cons, ih]
    rfl

theorem lastIdxOf_spec (c : Char) :
    ∀ (l : List Char) (i : Nat), lastIdxOf c l = some i →
      ∃ pre post, l = pre ++ c :: post ∧ pre.length = i ∧ c ∉ post := by
  intro l
  induction l with
  | nil => intro i h; exact Option.noConfusion h
  | cons x xs ih =>
    intro i h
    rw [lastIdxOf_cons] at h
    cases h' : lastIdxOf c xs with
    | some j =>
      rw [h'] at h
      simp only [Option.some.injEq] at h
      obtain ⟨pre, post, hxs, hlen, hpost⟩ := ih j h'
      refine ⟨x :: pre, post, by rw [hxs, List.cons_append], ?_, hpost⟩
      simp only [List.length_cons, hlen]
      omega
    | none =>
      rw [h'] at h
      by_cases hx : x = c
      · rw [if_pos hx] at h
        simp only [Option.some.injEq] at h
        subst hx
        refine ⟨[], xs, rfl, by simpa using h, (lastIdxOf_eq_none_iff x xs).mp h'⟩
      · rw [if_neg hx] at h
        exact Option.noConfusion h

theorem splitext_eq_of_none {l : List Char} (h : lastIdxOf '.' l = none) :
    splitext l = (l, []) := by
  unfold splitext
  rw [h]

theorem splitext_eq_of_some {l : List Char} {i : Nat} (h : lastIdxOf '.' l = some i) :
    splitext l =
      if (l.take i).any (fun c => c != '.') then (l.take i, l.drop i) else (l, []) := by
  unfold splitext
  rw [h]

theorem splitext_ext_shape (l : List Char) :
    (splitext l).2 = [] ∨ ∃ tail, (splitext l).2 = '.' :: tail ∧ '.' ∉ tail := by
  cases h : lastIdxOf '.' l with
  | none => rw [splitext_eq_of_none h]; exact Or.inl rfl
  | some i =>
    rw [splitext_eq_of_some h]
    obtain ⟨pre, post, hl, hlen, hpost⟩ := lastIdxOf_spec '.' l i h
    by_cases hany : (l.take i).any (fun c => c != '.') = true
    · rw [if_pos hany]
      refine Or.inr ⟨post, ?_, hpost⟩
      show l.drop i = '.' :: post
      rw [hl, List.drop_left' hlen]
    · rw [if_neg hany]
      exact Or.inl rfl

theorem splitext_append (l : List Char) : (splitext l).1 ++ (splitext l).2 = l := by
  cases h : lastIdxOf '.' l with
  | none => rw [splitext_eq_of_none h]; simp
  | some i =>
    rw [splitext_eq_of_some h]
    by_cases hany : (l.take i).any (fun c => c != '.') = true
    · rw [if_pos hany]
      exact List.take_append_drop i l
    · rw [if_neg hany]
      simp

theorem splitext_of_clean (b e : List Char) (hb : b ≠ []) (hbd : '.' ∉ b)
    (he : e = [] ∨ ∃ tail, e = '.' :: tail ∧ '.' ∉ tail) :
    splitext (b ++ e) = (b, e) := by
  rcases he with he | ⟨tail, he, htail⟩
  · subst he
    rw [List.append_nil]
    rw [splitext_eq_of_none ((lastIdxOf_eq_none_iff '.' b).mpr hbd)]
  · subst he
    rw [splitext_eq_of_some (lastIdxOf_append_cons b tail htail)]
    obtain ⟨c, b', hbc⟩ := List.exists_cons_of_ne_nil hb
    have hcb : c ∈ b := by rw [hbc]; exact List.mem_cons_self _ _
    have hcd : c ≠ '.' := fun hcc => hbd (hcc ▸ hcb)
    have hany : ((b ++ '.' :: tail).take b.length).any (fun c => c != '.') = true := by
      rw [List.take_left]
      refine List.any_eq_true.mpr ⟨c, hcb, ?_⟩
      simpa using hcd
    rw [if_pos hany, List.take_left, List.drop_left]

/-! ### `MP3MetaEnricher.clean_filename`

The pipeline: split off the extension, delete every character that is not
`[A-Za-z\s]`, split on whitespace keeping only all-ASCII tokens, rejoin with
single spaces, translate if any non-ASCII character remains (modelled by an
abstract translator returning `none` on failure, mirroring the
`try/except`), strip, and reattach the extension. -/

def pyFilter (l : List Char) : List Char := l.filter keepChar

def cleanTokens (name : List Char) : List (List Char) :=
  (pySplit (pyFilter name)).filter (fun w => w.all charAscii)

def cleanJoined (name : List Char) : List Char := joinSp (cleanTokens name)

/-- The base-name part of `clean_filename`'s result (before the extension is
reattached). -/
def cleanBaseName (f : List Char) : List Char := pyStrip (cleanJoined (splitext f).1)

def cleanCore (tr : List Char → Option (List Char)) (f : List Char) : List Char :=
  let p := splitext f
  let n2 := cleanJoined p.1
  let n3 := if n2.all charAscii then n2
            else match tr n2 with | some t => t | none => n2
  pyStrip n3 ++ p.2

/-- Whether `clean_filename` reaches its translation branch on this input. -/
def cleanTranslationUsed (f : List Char) : Bool :=
  !((cleanJoined (splitext f).1).all charAscii)

def clean_filename (tr : List Char → Option (List Char)) (s : String) : String :=
  ⟨cleanCore tr s.data⟩

/-- `clean_filename` with a translator that always fails; by
`cleanCore_tr_irrel` the choice of translator is irrelevant. -/
def cleanFn (s : String) : String := clean_filename (fun _ => none) s

theorem cleanTokens_good (name : List Char) :
    ∀ tok ∈ cleanTokens name, tok ≠ [] ∧ ∀ c ∈ tok, isAsciiLetterB c = true := by
  intro tok htok
  have hmem := (List.mem_filter.mp htok).1
  constructor
  · exact pySplitAux_tok_nonempty (pyFilter name) [] tok hmem
  · intro c hc
    have h1 := pySplit_tok_mem (pyFilter name) tok hmem c hc
    have h2 := (List.mem_filter.mp h1.1).2
    have h3 : keepChar c = true := h2
    simp only [keepChar, Bool.or_eq_true] at h3
    rcases h3 with h3 | h3
    · exact h3
    · rw [h1.2] at h3
      exact Bool.noConfusion h3

theorem cleanJoined_chars (name : List Char) :
    ∀ c ∈ cleanJoined name, isAsciiLetterB c = true ∨ c = ' ' := by
  intro c hc
  rcases joinSp_mem (cleanTokens name) c hc with h | ⟨t, ht, hct⟩
  · exact Or.inr h
  · exact Or.inl ((cleanTokens_good name t ht).2 c hct)

theorem cleanJoined_ascii (name : List Char) :
    (cleanJoined name).all charAscii = true := by
  rw [List.all_eq_true]
  intro c hc
  rcases cleanJoined_chars name c hc with h | h
  · exact letter_ascii h
  · subst h; decide

theorem pyStrip_cleanJoined (name : List Char) :
    pyStrip (cleanJoined name) = cleanJoined name := by
  apply pyStrip_joinSp
  · intro t ht
    exact (cleanTokens_good name t ht).1
  · intro t ht c hc
    exact letter_not_space ((cleanTokens_good name t ht).2 c hc)

theorem cleanBaseName_eq (f : List Char) :
    cleanBaseName f = cleanJoined (splitext f).1 := by
  unfold cleanBaseName
  exact pyStrip_cleanJoined _

theorem cleanCore_eq (tr : List Char → Option (List Char)) (f : List Char) :
    cleanCore tr f = cleanBaseName f ++ (splitext f).2 := by
  unfold cleanCore cleanBaseName
  simp [cleanJoined_ascii]

theorem cleanCore_tr_irrel (tr tr' : List Char → Option (List Char)) (f : List Char) :
    cleanCore tr f = cleanCore tr' f := by
  rw [cleanCore_eq, cleanCore_eq]

theorem cleanTranslationUsed_false (f : List Char) :
    cleanTranslationUsed f = false := by
  unfold cleanTranslationUsed
  rw [cleanJoined_ascii]
  rfl

theorem cleanBaseName_chars (f : List Char) :
    ∀ c ∈ cleanBaseName f, isAsciiLetterB c = true ∨ c = ' ' := by
  rw [cleanBaseName_eq]
  exact cleanJoined_chars _

theorem cleanBaseName_no_dot (f : List Char) : '.' ∉ cleanBaseName f := by
  intro h
  rcases cleanBaseName_chars f '.' h with h' | h'
  · exact letter_ne_dot h' rfl
  · exact absurd h' (by decide)

theorem cleanBaseName_def (f : List Char) :
    cleanBaseName f = pyStrip (cleanJoined (splitext f).1) := rfl

theorem cleanCore_idem (tr : List Char → Option (List Char)) (f : List Char)
    (h : cleanBaseName f ≠ []) :
    cleanCore tr (cleanCore tr f) = cleanCore tr f := by
  have hb : cleanBaseName f = joinSp (cleanTokens (splitext f).1) := cleanBaseName_eq f
  have htsgood := cleanTokens_good (splitext f).1
  have hts1 : ∀ t ∈ cleanTokens (splitext f).1, t ≠ [] := fun t ht => (htsgood t ht).1
  have hts2 : ∀ t ∈ cleanTokens (splitext f).1, ∀ c ∈ t, pyIsSpace c = false :=
    fun t ht c hc => letter_not_space ((htsgood t ht).2 c hc)
  have hsplit : splitext (cleanBaseName f ++ (splitext f).2)
      = (cleanBaseName f, (splitext f).2) :=
    splitext_of_clean _ _ h (cleanBaseName_no_dot f) (splitext_ext_shape f)
  have hfilter : pyFilter (cleanBaseName f) = cleanBaseName f := by
    unfold pyFilter
    rw [List.filter_eq_self]
    intro c hc
    rcases cleanBaseName_chars f c hc with h' | h'
    · exact keep_of_letter h'
    · subst h'; decide
  have hsplitb : pySplit (cleanBaseName f) = cleanTokens (splitext f).1 := by
    rw [hb]
    exact pySplit_joinSp _ hts1 hts2
  have hascii : (cleanTokens (splitext f).1).filter (fun w => w.all charAscii)
      = cleanTokens (splitext f).1 := by
    rw [List.filter_eq_self]
    intro t ht
    rw [List.all_eq_true]
    intro c hc
    exact letter_ascii ((htsgood t ht).2 c hc)
  have hcj : cleanJoined (cleanBaseName f) = cleanBaseName f := by
    unfold cleanJoined cleanTokens
    rw [hfilter, hsplitb, hascii, ← hb]
  have hstrip : pyStrip (cleanBaseName f) = cleanBaseName f := by
    rw [cleanBaseName_eq f]
    exact pyStrip_cleanJoined _
  rw [cleanCore_eq tr f, cleanCore_eq tr (cleanBaseName f ++ (splitext f).2),
    cleanBaseName_def (cleanBaseName f ++ (splitext f).2), hsplit]
  show pyStrip (cleanJoined (cleanBaseName f)) ++ (splitext f).2
      = cleanBaseName f ++ (splitext f).2
  rw [hcj, hstrip]

/-! ### Case-insensitive substring matching (Python `key in text.lower()`) -/

def pyLowerChar (c : Char) : Char :=
  if 'A' ≤ c ∧ c ≤ 'Z' then Char.ofNat (c.toNat + 32) else c

def pyLower (l : List Char) : List Char := l.map pyLowerChar

def pyLowerS (s : String) : String := ⟨pyLower s.data⟩

/-- Python's substring test `needle in hay`. -/
def listContains (needle : List Char) : List Char → Bool
  | [] => needle.isEmpty
  | c :: t => needle.isPrefixOf (c :: t) || listContains needle t

def pyInS (needle hay : String) : Bool := listContains needle.data hay.data

/-! ### `map_genre` (music_downloader.py)

The dict-literal iteration order of Python 3.7+ is insertion order, so the
keyword table is a list in source order and the loop is `find?`. -/

def genre_map : List (String × String) :=
  [("pop", "Pop"), ("rock", "Rock"), ("electronic", "Electronic"),
   ("edm", "Electronic"), ("classical", "Classical"), ("hip hop", "Pop"),
   ("rap", "Pop"), ("jazz", "Other"), ("folk", "Other"), ("country", "Other"),
   ("metal", "Rock"), ("indie", "Rock"), ("dance", "Electronic"),
   ("blues", "Other"), ("reggae", "Other"), ("soul", "Other"), ("r&b", "Pop"),
   ("soundtrack", "Other"), ("other", "Other")]

def map_genre (genre : String) : String :=
  if genre = "" then "Other"
  else
    match genre_map.find? (fun kv => pyInS kv.1 (pyLowerS genre)) with
    | some kv => kv.2
    | none => "Other"

/-! ### `determine_genre` (music_renamer.py) -/

def GENRE_MAPPING : List (String × String) :=
  [("arabic", "Arabic & Middle Eastern"), ("middle eastern", "Arabic & Middle Eastern"),
   ("bollywood", "Bollywood & Indian Pop"), ("indian pop", "Bollywood & Indian Pop"),
   ("chill", "Chill & Acoustic"), ("acoustic", "Chill & Acoustic"),
   ("electronic", "Electronic & EDM"), ("edm", "Electronic & EDM"),
   ("pop", "Pop"), ("rock", "Rock"),
   ("sufi", "Sufi & Devotional"), ("devotional", "Sufi & Devotional"),
   ("upbeat", "Upbeat & Party"), ("party", "Upbeat & Party")]

/-- The first (keyword, folder) pair of `GENRE_MAPPING` whose keyword occurs
in the lowercased text — the inner loop of `determine_genre`. -/
def keywordHit (t : String) : Option (String × String) :=
  GENRE_MAPPING.find? (fun kv => pyInS (pyLowerS kv.1) (pyLowerS t))

/-- The outer loop of `determine_genre` over `text_to_analyze`. -/
def scanTexts : List String → String
  | [] => "Other"
  | t :: rest =>
    match keywordHit t with
    | some kv => kv.2
    | none => scanTexts rest

/-- The fields of a yt-dlp `info_dict` that `determine_genre` inspects. -/
structure InfoR where
  categories : Option (List String)
  tags : Option (List String)
  title : Option String
  description : Option String

/-- `text_to_analyze`: categories, then tags (each only when present and
non-empty, matching Python truthiness), then title and description (when
present, with no truthiness check). -/
def infoTexts (i : InfoR) : List String :=
  (match i.categories with
   | some l => if l.isEmpty then [] else l
   | none => []) ++
  (match i.tags with
   | some l => if l.isEmpty then [] else l
   | none => []) ++
  (match i.title with | some t => [t] | none => []) ++
  (match i.description with | some d => [d] | none => [])

def determine_genre (info : Option InfoR) : String :=
  match info with
  | none => "Other"
  | some i => scanTexts (infoTexts i)

/-! ### Processed ledger (`load_processed` / `save_processed`)

The persisted file is the JSON array of keys; the in-memory Python `set` is
a duplicate-free list.  `markDone` is `self.processed.add(k)`. -/

def load_processed (file : Option (List String)) : List String :=
  match file with
  | none => []
  | some l => l.dedup

def save_processed (s : List String) : List String := s

def markDone (k : String) (s : List String) : List String :=
  if k ∈ s then s else k :: s

/-! ### `fetch_metadata` (the metadata resolver)

Each provider is modelled by the field list it assembles for the query
(`Except` failure = an exception inside the provider's `try` block,
`ok none` = no entries / no items).  The model records whether the Google
fallback stage was entered and whether its HTTP request was attempted. -/

structure FetchTrace where
  result : Option (List (String × String))
  googleEntered : Bool
  googleRequested : Bool
deriving DecidableEq

/-- Drop empty-string fields, as `{k: v for k, v in meta.items() if v}`. -/
def dropEmptyFields (m : List (String × String)) : List (String × String) :=
  m.filter (fun kv => kv.2 != "")

/-- What one provider block contributes: on exception or no entries,
nothing; otherwise the assembled fields with empty values dropped, and
nothing if that leaves the candidate empty. -/
def providerStage (r : Except Unit (Option (List (String × String)))) :
    Option (List (String × String)) :=
  match r with
  | .error _ => none
  | .ok none => none
  | .ok (some kvs) =>
    if (dropEmptyFields kvs).isEmpty then none else some (dropEmptyFields kvs)

def fetch_metadata (ytFields : Except Unit (Option (List (String × String))))
    (creds : Bool)
    (googleFields : Except Unit (Option (List (String × String)))) : FetchTrace :=
  match providerStage ytFields with
  | some m => ⟨some m, false, false⟩
  | none =>
    if creds then ⟨providerStage googleFields, true, true⟩
    else ⟨none, true, false⟩

/-! ### Filesystem model -/

structure MFile where
  tags : List (String × String)
  content : Nat
deriving DecidableEq

def lookupF (p : String) (fs : List (String × MFile)) : Option MFile :=
  (fs.find? (fun e => e.1 == p)).map (fun e => e.2)

def removeF (p : String) (fs : List (String × MFile)) : List (String × MFile) :=
  fs.filter (fun e => e.1 != p)

def updateF (p : String) (f : MFile) (fs : List (String × MFile)) :
    List (String × MFile) :=
  fs.map (fun e => if e.1 == p then (p, f) else e)

def joinP (root name : String) : String := root ++ "/" ++ name

def baseNameOf (p : String) : String :=
  match lastIdxOf '/' p.data with
  | none => p
  | some i => ⟨p.data.drop (i + 1)⟩

def lowerEndsWithMp3 (s : String) : Bool :=
  List.isSuffixOf ".mp3".data (pyLower s.data)

/-! ### `enrich_file` -/

def common_tags : List String :=
  ["artist", "genre", "title", "album", "date", "tracknumber", "composer",
   "albumartist", "discnumber", "length", "comment"]

def hasTag (tags : List (String × String)) (k : String) : Bool :=
  tags.any (fun kv => kv.1 == k)

def setTag (tags : List (String × String)) (k v : String) :
    List (String × String) :=
  (k, v) :: tags.filter (fun kv => kv.1 != k)

/-- `enrich_file`: `oracle` is `fetch_metadata` applied to the basename;
`tagFault path = true` models the `MP3(...)`/`audio.save()` call raising,
which the function catches, returning `False`. -/
def enrich_file (oracle : String → Option (List (String × String)))
    (tagFault : String → Bool) (path : String) (f : MFile) : MFile × Bool :=
  if tagFault path then (f, false)
  else
    let missing := common_tags.filter (fun k => !hasTag f.tags k)
    if missing.isEmpty then (f, false)
    else
      match oracle (baseNameOf path) with
      | none => (f, false)
      | some meta =>
        (⟨meta.foldl (fun ts kv => setTag ts kv.1 kv.2) f.tags, f.content⟩, true)

/-! ### The rename step of `process` (lines 238-245)

`renameFault src dst = true` models `os.remove`/`os.rename` raising an
`OSError`; there is no `try` around these calls, so the error escapes. -/

structure RenErr where
  src : String
  dst : String
deriving DecidableEq

def renameStep (renameFault : String → String → Bool) (root file cleaned : String)
    (fs : List (String × MFile)) : Except RenErr (List (String × MFile) × String) :=
  if cleaned == file then .ok (fs, joinP root file)
  else if renameFault (joinP root file) (joinP root cleaned) then
    .error ⟨joinP root file, joinP root cleaned⟩
  else
    match lookupF (joinP root file)
        (if (lookupF (joinP root cleaned) fs).isSome
         then removeF (joinP root cleaned) fs else fs) with
    | none => .error ⟨joinP root file, joinP root cleaned⟩
    | some f =>
      .ok ((joinP root cleaned, f) ::
        removeF (joinP root file)
          (if (lookupF (joinP root cleaned) fs).isSome
           then removeF (joinP root cleaned) fs else fs),
        joinP root cleaned)

/-! ### `MP3MetaEnricher.process` -/

inductive Outcome where
  | notMp3
  | skipped
  | enriched
  | notEnriched
deriving DecidableEq

structure PState where
  fs : List (String × MFile)
  ledger : List String
  persisted : List String
deriving DecidableEq

def processItem (oracle : String → Option (List (String × String)))
    (tagFault : String → Bool) (renameFault : String → String → Bool)
    (root : String) (st : PState) (file : String) :
    Except RenErr (PState × (String × Outcome)) :=
  if !lowerEndsWithMp3 file then .ok (st, (joinP root file, .notMp3))
  else if joinP root file ∈ st.ledger then .ok (st, (joinP root file, .skipped))
  else
    match renameStep renameFault root file (cleanFn file) st.fs with
    | .error e => .error e
    | .ok (fs1, curPath) =>
      match lookupF curPath fs1 with
      | none =>
        .ok (⟨fs1, st.ledger, save_processed st.ledger⟩, (curPath, .notEnriched))
      | some f =>
        if (enrich_file oracle tagFault curPath f).2 then
          .ok (⟨updateF curPath (enrich_file oracle tagFault curPath f).1 fs1,
                markDone curPath st.ledger,
                save_processed (markDone curPath st.ledger)⟩,
              (curPath, .enriched))
        else
          .ok (⟨fs1, st.ledger, save_processed st.ledger⟩, (curPath, .notEnriched))

def processE (oracle : String → Option (List (String × String)))
    (tagFault : String → Bool) (renameFault : String → String → Bool)
    (root : String) (snapshot : List String) (st : PState) :
    Except RenErr (PState × List (String × Outcome)) :=
  match snapshot with
  | [] => .ok (st, [])
  | file :: rest =>
    match processItem oracle tagFault renameFault root st file with
    | .error e => .error e
    | .ok (st1, out) =>
      match processE oracle tagFault renameFault root rest st1 with
      | .error e => .error e
      | .ok (st2, outs) => .ok (st2, out :: outs)

/-! ### `download_music` and the thread-pool batch -/

inductive DlErr where
  | unavailable (msg : String)
  | unexpected (msg : String)
deriving DecidableEq

inductive DlOutcome where
  | success (msg : String)
  | skippedUnavailable (msg : String)
  | failed (msg : String)
deriving DecidableEq

/-- The outermost `try/except` of `download_music`: the body's result or
exception is the input, the per-URL outcome string is the output. -/
def download_music (work : Except DlErr String) : DlOutcome :=
  match work with
  | .ok m => .success m
  | .error (.unavailable r) => .skippedUnavailable r
  | .error (.unexpected e) => .failed e

/-- The `ThreadPoolExecutor` batch: every submitted URL's work is turned
into an outcome. -/
def runBatch (works : List (Except DlErr String)) : List DlOutcome :=
  works.map download_music

/-! ### music_renamer.py: `sanitize_filename`, `is_sensible_filename`,
`process_music_file` -/

def invalidFileChars : List Char := ['\\', '/', ':', '*', '?', '"', '<', '>', '|']

/-- `re.sub(r'[\\/:*?"<>|]+', '', s)`. -/
def stripInvalid (l : List Char) : List Char :=
  l.filter (fun c => !(invalidFileChars.contains c))

def sanitize_filename (s : String) : String := ⟨pyStrip (stripInvalid s.data)⟩

/-- `re.search(r' - | \(|\)', s)` or more than two whitespace tokens. -/
def is_sensible_filename (s : String) : Bool :=
  pyInS " - " s || pyInS " (" s || pyInS ")" s ||
    decide (2 < (pySplit s.data).length)

inductive RenOutcome where
  | skippedSensible
  | noMatch
  | emptyTitle
  | noChange
  | targetExists
  | moved
  | moveFailed
deriving DecidableEq

/-- The destination `os.path.join(base, genre, sanitized_title + ext)`. -/
def renTargetPath (i : InfoR) (title base_music_folder ext : String) : String :=
  base_music_folder ++ "/" ++ determine_genre (some i) ++ "/" ++
    sanitize_filename title ++ ext

def process_music_file (ytInfo : Option InfoR) (filepath base_music_folder : String)
    (fs : List (String × MFile)) : RenOutcome × List (String × MFile) :=
  if is_sensible_filename ⟨(splitext (baseNameOf filepath).data).1⟩ then
    (.skippedSensible, fs)
  else
    match ytInfo with
    | none => (.noMatch, fs)
    | some i =>
      match i.title with
      | none => (.noMatch, fs)
      | some new_title =>
        if sanitize_filename new_title = "" then (.emptyTitle, fs)
        else if filepath = renTargetPath i new_title base_music_folder
            ⟨(splitext (baseNameOf filepath).data).2⟩ then
          (.noChange, fs)
        else if (lookupF (renTargetPath i new_title base_music_folder
            ⟨(splitext (baseNameOf filepath).data).2⟩) fs).isSome then
          (.targetExists, fs)
        else
          match lookupF filepath fs with
          | some f =>
            (.moved,
              (renTargetPath i new_title base_music_folder
                ⟨(splitext (baseNameOf filepath).data).2⟩, f) :: removeF filepath fs)
          | none => (.moveFailed, fs)

/-! ### music_downloader.py: `SanitizeFilenamePP.run` -/

structure PPInfo where
  filepath : Option String
  title : String
  id : String
deriving DecidableEq

/-- `os.path.dirname` for POSIX paths. -/
def dirOf (p : String) : String :=
  match lastIdxOf '/' p.data with
  | none => ""
  | some i =>
    if (p.data.take (i + 1)).all (fun c => c == '/') then ⟨p.data.take (i + 1)⟩
    else ⟨((p.data.take (i + 1)).reverse.dropWhile (fun c => c == '/')).reverse⟩

/-- `filepath.split('.')[-1]`: the segment after the last dot (the whole
string when there is no dot). -/
def lastDotSeg (l : List Char) : List Char :=
  l.foldl (fun acc ch => if ch = '.' then [] else acc ++ [ch]) []

/-- `sanitized_title`, falling back to the id when empty. -/
def ppSanitizedTitle (info : PPInfo) : String :=
  if (⟨pyStrip (stripInvalid info.title.data)⟩ : String) = "" then info.id
  else ⟨pyStrip (stripInvalid info.title.data)⟩

/-- The post-processor's `new_filepath`. -/
def ppTarget (info : PPInfo) (fp : String) : String :=
  dirOf fp ++ "/" ++ ppSanitizedTitle info ++ "." ++ (⟨lastDotSeg fp.data⟩ : String)

def sanitizeFilenamePP_run (info : PPInfo) (fs : List (String × MFile)) :
    PPInfo × List (String × MFile) :=
  match info.filepath with
  | none => (info, fs)
  | some fp =>
    if (lookupF fp fs).isNone then (info, fs)
    else if fp = ppTarget info fp then (info, fs)
    else if (lookupF (ppTarget info fp) fs).isSome then (info, fs)
    else
      match lookupF fp fs with
      | some f => ({ info with filepath := some (ppTarget info fp) },
                   (ppTarget info fp, f) :: removeF fp fs)
      | none => (info, fs)

/-! ### Lemmas about the filesystem and the process loop -/

theorem string_append_cancel_left {s a b : String} (h : s ++ a = s ++ b) : a = b := by
  have hd := congrArg String.data h
  simp only [String.data_append] at hd
  have h2 := List.append_cancel_left hd
  cases a
  cases b
  exact congrArg String.mk h2

theorem joinP_inj {root a b : String} (h : joinP root a = joinP root b) : a = b :=
  string_append_cancel_left h

theorem lookupF_cons_ne {p q : String} {f : MFile} {fs : List (String × MFile)}
    (h : q ≠ p) : lookupF p ((q, f) :: fs) = lookupF p fs := by
  unfold lookupF
  rw [List.find?_cons_of_neg]
  simp [h]

theorem lookupF_cons_self {p : String} {f : MFile} {fs : List (String × MFile)} :
    lookupF p ((p, f) :: fs) = some f := by
  unfold lookupF
  rw [List.find?_cons_of_pos]
  · rfl
  · simp

theorem lookupF_removeF_ne {p q : String} (h : q ≠ p) :
    ∀ fs, lookupF p (removeF q fs) = lookupF p fs := by
  intro fs
  induction fs with
  | nil => rfl
  | cons e fs ih =>
    obtain ⟨r, f⟩ := e
    by_cases hr : r = q
    · subst hr
      have h1 : removeF r ((r, f) :: fs) = removeF r fs := by
        unfold removeF
        rw [List.filter_cons, if_neg (by simp)]
      rw [h1, ih, lookupF_cons_ne h]
    · have h1 : removeF q ((r, f) :: fs) = (r, f) :: removeF q fs := by
        unfold removeF
        rw [List.filter_cons, if_pos (by simp [hr])]
      rw [h1]
      by_cases hp : r = p
      · subst hp
        rw [lookupF_cons_self, lookupF_cons_self]
      · rw [lookupF_cons_ne hp, lookupF_cons_ne hp, ih]

theorem lookupF_removeF_self (p : String) :
    ∀ fs, lookupF p (removeF p fs) = none := by
  intro fs
  induction fs with
  | nil => rfl
  | cons e fs ih =>
    obtain ⟨r, f⟩ := e
    by_cases hr : r = p
    · subst hr
      have h1 : removeF r ((r, f) :: fs) = removeF r fs := by
        unfold removeF
        rw [List.filter_cons, if_neg (by simp)]
      rw [h1, ih]
    · have h1 : removeF p ((r, f) :: fs) = (r, f) :: removeF p fs := by
        unfold removeF
        rw [List.filter_cons, if_pos (by simp [hr])]
      rw [h1, lookupF_cons_ne hr, ih]

theorem lookupF_updateF_ne {p q : String} {f : MFile} (h : q ≠ p) :
    ∀ fs, lookupF p (updateF q f fs) = lookupF p fs := by
  intro fs
  induction fs with
  | nil => rfl
  | cons e fs ih =>
    obtain ⟨r, g⟩ := e
    by_cases hr : r = q
    · subst hr
      have h1 : updateF r f ((r, g) :: fs) = (r, f) :: updateF r f fs := by
        unfold updateF
        rw [List.map_cons]
        simp
      rw [h1, lookupF_cons_ne h, lookupF_cons_ne h, ih]
    · have h1 : updateF q f ((r, g) :: fs) = (r, g) :: updateF q f fs := by
        unfold updateF
        rw [List.map_cons]
        simp [hr]
      rw [h1]
      by_cases hp : r = p
      · subst hp
        rw [lookupF_cons_self, lookupF_cons_self]
      · rw [lookupF_cons_ne hp, lookupF_cons_ne hp, ih]

theorem count_markDone_ne {p q : String} (h : q ≠ p) (l : List String) :
    (markDone q l).count p = l.count p := by
  unfold markDone
  split
  · rfl
  · rw [List.count_cons_of_ne (Ne.symm h)]

theorem count_markDone_self {p : String} {l : List String} (hnd : l.Nodup) :
    (markDone p l).count p = 1 := by
  unfold markDone
  split
  · rename_i hmem
    exact List.count_eq_one_of_mem hnd hmem
  · rename_i hmem
    rw [List.count_cons_self, List.count_eq_zero.mpr hmem]

theorem count_one_mem {p : String} {l : List String} (h : l.count p = 1) : p ∈ l := by
  by_contra hn
  rw [List.count_eq_zero.mpr hn] at h
  exact absurd h (by decide)

theorem markDone_nodup {k : String} {l : List String} (h : l.Nodup) :
    (markDone k l).Nodup := by
  unfold markDone
  split
  · exact h
  · rename_i hmem
    exact List.nodup_cons.mpr ⟨hmem, h⟩

/-! ### Per-item lemmas about `processItem` -/

theorem renameStep_frame {renameFault : String → String → Bool}
    {root file cleaned p : String} {fs fs' : List (String × MFile)} {cur : String}
    (hne : joinP root file ≠ p) (hcl : joinP root cleaned ≠ p)
    (hok : renameStep renameFault root file cleaned fs = .ok (fs', cur)) :
    lookupF p fs' = lookupF p fs ∧ cur ≠ p := by
  unfold renameStep at hok
  split at hok
  · simp only [Except.ok.injEq, Prod.mk.injEq] at hok
    constructor
    · rw [← hok.1]
    · rw [← hok.2]
      exact hne
  · split at hok
    · exact absurd hok (by simp)
    · split at hok
      · exact absurd hok (by simp)
      · rename_i f hf
        simp only [Except.ok.injEq, Prod.mk.injEq] at hok
        obtain ⟨h1, h2⟩ := hok
        subst h2
        refine ⟨?_, hcl⟩
        rw [← h1, lookupF_cons_ne hcl, lookupF_removeF_ne hne]
        split
        · rw [lookupF_removeF_ne hcl]
        · rfl

theorem processItem_eq_notMp3 (oracle : String → Option (List (String × String)))
    (tagFault : String → Bool) (renameFault : String → String → Bool)
    (root : String) (st : PState) (file : String)
    (h : lowerEndsWithMp3 file = false) :
    processItem oracle tagFault renameFault root st file
      = .ok (st, (joinP root file, .notMp3)) := by
  unfold processItem
  rw [h]
  rfl

theorem processItem_eq_skip (oracle : String → Option (List (String × String)))
    (tagFault : String → Bool) (renameFault : String → String → Bool)
    (root : String) (st : PState) (file : String)
    (h1 : lowerEndsWithMp3 file = true)
    (h2 : joinP root file ∈ st.ledger) :
    processItem oracle tagFault renameFault root st file
      = .ok (st, (joinP root file, .skipped)) := by
  unfold processItem
  rw [h1, if_neg (by simp), if_pos h2]

theorem processItem_eq_work (oracle : String → Option (List (String × String)))
    (tagFault : String → Bool) (renameFault : String → String → Bool)
    (root : String) (st : PState) (file : String)
    (h1 : lowerEndsWithMp3 file = true)
    (h2 : joinP root file ∉ st.ledger) :
    processItem oracle tagFault renameFault root st file =
      match renameStep renameFault root file (cleanFn file) st.fs with
      | .error e => .error e
      | .ok (fs1, curPath) =>
        match lookupF curPath fs1 with
        | none =>
          .ok (⟨fs1, st.ledger, save_processed st.ledger⟩, (curPath, .notEnriched))
        | some f =>
          if (enrich_file oracle tagFault curPath f).2 then
            .ok (⟨updateF curPath (enrich_file oracle tagFault curPath f).1 fs1,
                  markDone curPath st.ledger,
                  save_processed (markDone curPath st.ledger)⟩,
                (curPath, .enriched))
          else
            .ok (⟨fs1, st.ledger, save_processed st.ledger⟩, (curPath, .notEnriched)) := by
  unfold processItem
  rw [h1, if_neg (by simp), if_neg h2]

/-- Every successful work-case run of `processItem` has one of two shapes:
rename succeeded and enrichment failed (state saved, ledger unchanged), or
rename and enrichment succeeded (tags written, ledger extended, saved). -/
theorem processItem_work_cases {oracle : String → Option (List (String × String))}
    {tagFault : String → Bool} {renameFault : String → String → Bool}
    {root : String} {st : PState} {file : String}
    {st1 : PState} {out : String × Outcome}
    (h1 : lowerEndsWithMp3 file = true)
    (h2 : joinP root file ∉ st.ledger)
    (hok : processItem oracle tagFault renameFault root st file = .ok (st1, out)) :
    ∃ fs1 cur,
      renameStep renameFault root file (cleanFn file) st.fs = .ok (fs1, cur) ∧
      ((st1 = ⟨fs1, st.ledger, save_processed st.ledger⟩ ∧
          out = (cur, .notEnriched)) ∨
       (∃ f, lookupF cur fs1 = some f ∧
          st1 = ⟨updateF cur (enrich_file oracle tagFault cur f).1 fs1,
                 markDone cur st.ledger,
                 save_processed (markDone cur st.ledger)⟩ ∧
          out = (cur, .enriched))) := by
  rw [processItem_eq_work oracle tagFault renameFault root st file h1 h2] at hok
  cases hr : renameStep renameFault root file (cleanFn file) st.fs with
  | error e =>
    rw [hr] at hok
    simp at hok
  | ok r =>
    obtain ⟨fs1, cur⟩ := r
    rw [hr] at hok
    simp only [] at hok
    refine ⟨fs1, cur, rfl, ?_⟩
    cases hl : lookupF cur fs1 with
    | none =>
      rw [hl] at hok
      simp only [Except.ok.injEq, Prod.mk.injEq] at hok
      exact Or.inl ⟨hok.1.symm, hok.2.symm⟩
    | some f =>
      rw [hl] at hok
      simp only [] at hok
      split at hok
      · simp only [Except.ok.injEq, Prod.mk.injEq] at hok
        exact Or.inr ⟨f, rfl, hok.1.symm, hok.2.symm⟩
      · simp only [Except.ok.injEq, Prod.mk.injEq] at hok
        exact Or.inl ⟨hok.1.symm, hok.2.symm⟩

theorem processItem_self_preserve {oracle : String → Option (List (String × String))}
    {tagFault : String → Bool} {renameFault : String → String → Bool}
    {root : String} {st : PState} {file : String}
    (hmem : joinP root file ∈ st.ledger)
    {st1 : PState} {out : String × Outcome}
    (hok : processItem oracle tagFault renameFault root st file = .ok (st1, out)) :
    st1 = st := by
  by_cases hmp3 : lowerEndsWithMp3 file = true
  · rw [processItem_eq_skip oracle tagFault renameFault root st file hmp3 hmem] at hok
    simp only [Except.ok.injEq, Prod.mk.injEq] at hok
    exact hok.1.symm
  · have h0 : lowerEndsWithMp3 file = false := by rwa [Bool.not_eq_true] at hmp3
    rw [processItem_eq_notMp3 oracle tagFault renameFault root st file h0] at hok
    simp only [Except.ok.injEq, Prod.mk.injEq] at hok
    exact hok.1.symm

theorem processItem_frame {oracle : String → Option (List (String × String))}
    {tagFault : String → Bool} {renameFault : String → String → Bool}
    {root p : String} {st : PState} {file : String}
    {st1 : PState} {out : String × Outcome}
    (hne : joinP root file ≠ p)
    (hcl : joinP root (cleanFn file) ≠ p)
    (hok : processItem oracle tagFault renameFault root st file = .ok (st1, out)) :
    lookupF p st1.fs = lookupF p st.fs ∧ st1.ledger.count p = st.ledger.count p := by
  by_cases hmp3 : lowerEndsWithMp3 file = true
  · by_cases hmem : joinP root file ∈ st.ledger
    · rw [processItem_self_preserve hmem hok]
      exact ⟨rfl, rfl⟩
    · obtain ⟨fs1, cur, hr, hcases⟩ := processItem_work_cases hmp3 hmem hok
      have hframe := renameStep_frame hne hcl hr
      rcases hcases with ⟨hst, _⟩ | ⟨f, hl, hst, _⟩
      · subst hst
        exact ⟨hframe.1, rfl⟩
      · subst hst
        constructor
        · show lookupF p (updateF cur _ fs1) = _
          rw [lookupF_updateF_ne hframe.2, hframe.1]
        · show (markDone cur st.ledger).count p = _
          exact count_markDone_ne hframe.2 _
  · have h0 : lowerEndsWithMp3 file = false := by rwa [Bool.not_eq_true] at hmp3
    rw [processItem_eq_notMp3 oracle tagFault renameFault root st file h0] at hok
    simp only [Except.ok.injEq, Prod.mk.injEq] at hok
    rw [← hok.1]
    exact ⟨rfl, rfl⟩

theorem processItem_ledger_nodup {oracle : String → Option (List (String × String))}
    {tagFault : String → Bool} {renameFault : String → String → Bool}
    {root : String} {st : PState} {file : String}
    {st1 : PState} {out : String × Outcome}
    (hnd : st.ledger.Nodup)
    (hok : processItem oracle tagFault renameFault root st file = .ok (st1, out)) :
    st1.ledger.Nodup := by
  by_cases hmp3 : lowerEndsWithMp3 file = true
  · by_cases hmem : joinP root file ∈ st.ledger
    · rw [processItem_self_preserve hmem hok]
      exact hnd
    · obtain ⟨fs1, cur, hr, hcases⟩ := processItem_work_cases hmp3 hmem hok
      rcases hcases with ⟨hst, _⟩ | ⟨f, hl, hst, _⟩
      · subst hst
        exact hnd
      · subst hst
        exact markDone_nodup hnd
  · have h0 : lowerEndsWithMp3 file = false := by rwa [Bool.not_eq_true] at hmp3
    rw [processItem_eq_notMp3 oracle tagFault renameFault root st file h0] at hok
    simp only [Except.ok.injEq, Prod.mk.injEq] at hok
    rw [← hok.1]
    exact hnd

theorem processItem_persist {oracle : String → Option (List (String × String))}
    {tagFault : String → Bool} {renameFault : String → String → Bool}
    {root : String} {st : PState} {file : String}
    {st1 : PState} {out : String × Outcome}
    (hinv : st.persisted = save_processed st.ledger)
    (hok : processItem oracle tagFault renameFault root st file = .ok (st1, out)) :
    st1.persisted = save_processed st1.ledger := by
  by_cases hmp3 : lowerEndsWithMp3 file = true
  · by_cases hmem : joinP root file ∈ st.ledger
    · rw [processItem_self_preserve hmem hok]
      exact hinv
    · obtain ⟨fs1, cur, hr, hcases⟩ := processItem_work_cases hmp3 hmem hok
      rcases hcases with ⟨hst, _⟩ | ⟨f, hl, hst, _⟩
      · subst hst
        rfl
      · subst hst
        rfl
  · have h0 : lowerEndsWithMp3 file = false := by rwa [Bool.not_eq_true] at hmp3
    rw [processItem_eq_notMp3 oracle tagFault renameFault root st file h0] at hok
    simp only [Except.ok.injEq, Prod.mk.injEq] at hok
    rw [← hok.1]
    exact hinv

/-! ### Whole-run lemmas about `processE` -/

theorem processE_frame (oracle : String → Option (List (String × String)))
    (tagFault : String → Bool) (renameFault : String → String → Bool)
    (root p : String) :
    ∀ (snapshot : List String) (st : PState),
      (∀ w ∈ snapshot, joinP root w ≠ p → joinP root (cleanFn w) ≠ p) →
      st.ledger.count p = 1 →
      ∀ {st' : PState} {outs : List (String × Outcome)},
        processE oracle tagFault renameFault root snapshot st = .ok (st', outs) →
        lookupF p st'.fs = lookupF p st.fs ∧ st'.ledger.count p = 1 := by
  intro snapshot
  induction snapshot with
  | nil =>
    intro st hcol hcount st' outs hok
    unfold processE at hok
    simp only [Except.ok.injEq, Prod.mk.injEq] at hok
    rw [← hok.1]
    exact ⟨rfl, hcount⟩
  | cons w rest ih =>
    intro st hcol hcount st' outs hok
    unfold processE at hok
    cases hitem : processItem oracle tagFault renameFault root st w with
    | error e =>
      rw [hitem] at hok
      exact absurd hok (by simp)
    | ok r =>
      obtain ⟨st1, out⟩ := r
      rw [hitem] at hok
      simp only [] at hok
      cases hrest : processE oracle tagFault renameFault root rest st1 with
      | error e =>
        rw [hrest] at hok
        exact absurd hok (by simp)
      | ok r2 =>
        obtain ⟨st2, outs2⟩ := r2
        rw [hrest] at hok
        simp only [] at hok
        simp only [Except.ok.injEq, Prod.mk.injEq] at hok
        obtain ⟨hst, _⟩ := hok
        subst hst
        have hstep : lookupF p st1.fs = lookupF p st.fs ∧ st1.ledger.count p = 1 := by
          by_cases hw : joinP root w = p
          · have hmem : joinP root w ∈ st.ledger := by
              rw [hw]
              exact count_one_mem hcount
            rw [processItem_self_preserve hmem hitem]
            exact ⟨rfl, hcount⟩
          · have hfr := processItem_frame hw (hcol w (List.mem_cons_self _ _) hw) hitem
            refine ⟨hfr.1, ?_⟩
            rw [hfr.2]
            exact hcount
        have hrest' := ih st1 (fun u hu => hcol u (List.mem_cons_of_mem _ hu)) hstep.2 hrest
        exact ⟨hrest'.1.trans hstep.1, hrest'.2⟩

theorem processE_skip_outcome (oracle : String → Option (List (String × String)))
    (tagFault : String → Bool) (renameFault : String → String → Bool)
    (root p : String) :
    ∀ (snapshot : List String) (st : PState),
      (∀ w ∈ snapshot, joinP root w ≠ p → joinP root (cleanFn w) ≠ p) →
      st.ledger.count p = 1 →
      ∀ w₀ ∈ snapshot, joinP root w₀ = p → lowerEndsWithMp3 w₀ = true →
      ∀ {st' : PState} {outs : List (String × Outcome)},
        processE oracle tagFault renameFault root snapshot st = .ok (st', outs) →
        (p, Outcome.skipped) ∈ outs := by
  intro snapshot
  induction snapshot with
  | nil =>
    intro st _ _ w₀ hw0
    simp at hw0
  | cons w rest ih =>
    intro st hcol hcount w₀ hw0 hjoin hmp3 st' outs hok
    unfold processE at hok
    cases hitem : processItem oracle tagFault renameFault root st w with
    | error e =>
      rw [hitem] at hok
      exact absurd hok (by simp)
    | ok r =>
      obtain ⟨st1, out⟩ := r
      rw [hitem] at hok
      simp only [] at hok
      cases hrest : processE oracle tagFault renameFault root rest st1 with
      | error e =>
        rw [hrest] at hok
        exact absurd hok (by simp)
      | ok r2 =>
        obtain ⟨st2, outs2⟩ := r2
        rw [hrest] at hok
        simp only [] at hok
        simp only [Except.ok.injEq, Prod.mk.injEq] at hok
        obtain ⟨hst, houts⟩ := hok
        rcases List.mem_cons.mp hw0 with hw0 | hw0
        · subst hw0
          have hmem : joinP root w₀ ∈ st.ledger := by
            rw [hjoin]
            exact count_one_mem hcount
          rw [processItem_eq_skip oracle tagFault renameFault root st w₀ hmp3 hmem]
            at hitem
          simp only [Except.ok.injEq, Prod.mk.injEq] at hitem
          rw [← houts, ← hitem.2, hjoin]
          exact List.mem_cons_self _ _
        · have hcount1 : st1.ledger.count p = 1 := by
            by_cases hw : joinP root w = p
            · have hmem : joinP root w ∈ st.ledger := by
                rw [hw]
                exact count_one_mem hcount
              rw [processItem_self_preserve hmem hitem]
              exact hcount
            · have hfr := processItem_frame hw (hcol w (List.mem_cons_self _ _) hw) hitem
              rw [hfr.2]
              exact hcount
          have := ih st1 (fun u hu => hcol u (List.mem_cons_of_mem _ hu)) hcount1
            w₀ hw0 hjoin hmp3 hrest
          rw [← houts]
          exact List.mem_cons_of_mem _ this

theorem processE_write_through (oracle : String → Option (List (String × String)))
    (tagFault : String → Bool) (renameFault : String → String → Bool) (root : String) :
    ∀ (snapshot : List String) (st : PState),
      st.persisted = save_processed st.ledger →
      ∀ {st' : PState} {outs : List (String × Outcome)},
        processE oracle tagFault renameFault root snapshot st = .ok (st', outs) →
        st'.persisted = save_processed st'.ledger := by
  intro snapshot
  induction snapshot with
  | nil =>
    intro st hinv st' outs hok
    unfold processE at hok
    simp only [Except.ok.injEq, Prod.mk.injEq] at hok
    rw [← hok.1]
    exact hinv
  | cons w rest ih =>
    intro st hinv st' outs hok
    unfold processE at hok
    cases hitem : processItem oracle tagFault renameFault root st w with
    | error e =>
      rw [hitem] at hok
      exact absurd hok (by simp)
    | ok r =>
      obtain ⟨st1, out⟩ := r
      rw [hitem] at hok
      simp only [] at hok
      cases hrest : processE oracle tagFault renameFault root rest st1 with
      | error e =>
        rw [hrest] at hok
        exact absurd hok (by simp)
      | ok r2 =>
        obtain ⟨st2, outs2⟩ := r2
        rw [hrest] at hok
        simp only [] at hok
        simp only [Except.ok.injEq, Prod.mk.injEq] at hok
        rw [← hok.1]
        exact ih st1 (processItem_persist hinv hitem) hrest

/-! ### Genre bucket helpers -/

def downloaderBuckets : List String :=
  ["Pop", "Rock", "Electronic", "Classical", "Other"]

def renamerBuckets : List String :=
  ["Arabic & Middle Eastern", "Bollywood & Indian Pop", "Chill & Acoustic",
   "Electronic & EDM", "Pop", "Rock", "Sufi & Devotional", "Upbeat & Party",
   "Other"]

theorem map_genre_mem (g : String) : map_genre g ∈ downloaderBuckets := by
  unfold map_genre
  split
  · decide
  · cases h : genre_map.find? (fun kv => pyInS kv.1 (pyLowerS g)) with
    | none => decide
    | some kv =>
      have hm := List.mem_of_find?_eq_some h
      have hall : ∀ e ∈ genre_map, e.2 ∈ downloaderBuckets := by decide
      exact hall kv hm

theorem scanTexts_mem (ts : List String) : scanTexts ts ∈ renamerBuckets := by
  induction ts with
  | nil => decide
  | cons t rest ih =>
    show (match keywordHit t with | some kv => kv.2 | none => scanTexts rest)
        ∈ renamerBuckets
    cases h : keywordHit t with
    | none => exact ih
    | some kv =>
      have hm := List.mem_of_find?_eq_some h
      have hall : ∀ e ∈ GENRE_MAPPING, e.2 ∈ renamerBuckets := by decide
      exact hall kv hm

/-! ## The claims -/

/-- C1 counterexample: a one-file directory whose file has no tags and whose
resolver finds nothing.  The first run renames `song!.mp3` to `song.mp3` but
enrichment fails, so nothing is written to the ledger; the second run (with
no external state change) therefore processes the file again — its outcome is
`notEnriched`, not `Skipped`, and the ledger holds zero entries for it, not
one. -/
theorem C1_counterexample :
    processE (fun _ => none) (fun _ => false) (fun _ _ => false) "d" ["song!.mp3"]
        ⟨[("d/song!.mp3", ⟨[], 0⟩)], [], []⟩
      = .ok (⟨[("d/song.mp3", ⟨[], 0⟩)], [], []⟩, [("d/song.mp3", .notEnriched)]) ∧
    processE (fun _ => none) (fun _ => false) (fun _ _ => false) "d" ["song.mp3"]
        ⟨[("d/song.mp3", ⟨[], 0⟩)], [], []⟩
      = .ok (⟨[("d/song.mp3", ⟨[], 0⟩)], [], []⟩, [("d/song.mp3", .notEnriched)]) ∧
    Outcome.notEnriched ≠ Outcome.skipped ∧
    ([] : List String).count "d/song.mp3" ≠ 1 :=
  ⟨rfl, rfl, by decide, by decide⟩

/-- C1 (amended): for every MP3 file whose first-run enrichment succeeded —
its path `p` is in the ledger and the file sits at `p` — a second run over a
snapshot containing its basename yields `Skipped` for it, leaves its
filesystem entry untouched, and the ledger contains exactly one entry for it,
provided no other snapshot entry's cleaned name renames onto `p`. -/
theorem C1_second_run_skips_enriched
    (oracle : String → Option (List (String × String)))
    (tagFault : String → Bool) (renameFault : String → String → Bool)
    (root p w₀ : String) (snapshot : List String) (st1 st2 : PState)
    (outs : List (String × Outcome))
    (hnd : st1.ledger.Nodup)
    (hmem : p ∈ st1.ledger)
    (hw0 : w₀ ∈ snapshot) (hjoin : joinP root w₀ = p)
    (hmp3 : lowerEndsWithMp3 w₀ = true)
    (hcol : ∀ w ∈ snapshot, joinP root w ≠ p → joinP root (cleanFn w) ≠ p)
    (hok : processE oracle tagFault renameFault root snapshot st1 = .ok (st2, outs)) :
    (p, Outcome.skipped) ∈ outs ∧
    lookupF p st2.fs = lookupF p st1.fs ∧
    st2.ledger.count p = 1 := by
  have hcount : st1.ledger.count p = 1 := List.count_eq_one_of_mem hnd hmem
  exact ⟨processE_skip_outcome oracle tagFault renameFault root p snapshot st1
      hcol hcount w₀ hw0 hjoin hmp3 hok,
    (processE_frame oracle tagFault renameFault root p snapshot st1
      hcol hcount hok).1,
    (processE_frame oracle tagFault renameFault root p snapshot st1
      hcol hcount hok).2⟩

/-- C1 witness: a ledgered file at `d/a.mp3` is skipped by the next run. -/
theorem C1_witness :
    (["d/a.mp3"] : List String).Nodup ∧
    (("d/a.mp3", Outcome.skipped)
        ∈ ([("d/a.mp3", Outcome.skipped)] : List (String × Outcome)) ∧
      lookupF "d/a.mp3" [("d/a.mp3", (⟨[("artist", "x")], 0⟩ : MFile))]
        = lookupF "d/a.mp3" [("d/a.mp3", (⟨[("artist", "x")], 0⟩ : MFile))] ∧
      (["d/a.mp3"] : List String).count "d/a.mp3" = 1) :=
  ⟨by decide,
    C1_second_run_skips_enriched (fun _ => none) (fun _ => false) (fun _ _ => false)
      "d" "d/a.mp3" "a.mp3" ["a.mp3"]
      ⟨[("d/a.mp3", ⟨[("artist", "x")], 0⟩)], ["d/a.mp3"], ["d/a.mp3"]⟩
      ⟨[("d/a.mp3", ⟨[("artist", "x")], 0⟩)], ["d/a.mp3"], ["d/a.mp3"]⟩
      [("d/a.mp3", Outcome.skipped)]
      (by decide) (by decide) (by decide) (by decide) (by decide) (by decide) rfl⟩

/-- C2 counterexample: processing a directory of two MP3 files where the
first file needs renaming (`song1.mp3` → `song.mp3`) and the OS-level rename
raises.  `process` has no handler around `os.remove`/`os.rename`, so the
exception escapes the item boundary: the whole run aborts with the error and
no outcome is produced for the second item. -/
theorem C2_counterexample :
    processE (fun _ => none) (fun _ => false) (fun _ _ => true) "d"
        ["song1.mp3", "song2.mp3"]
        ⟨[("d/song1.mp3", ⟨[], 1⟩), ("d/song2.mp3", ⟨[], 2⟩)], [], []⟩
      = .error ⟨"d/song1.mp3", "d/song.mp3"⟩ ∧
    ∀ (st : PState) (outs : List (String × Outcome)),
      processE (fun _ => none) (fun _ => false) (fun _ _ => true) "d"
        ["song1.mp3", "song2.mp3"]
        ⟨[("d/song1.mp3", ⟨[], 1⟩), ("d/song2.mp3", ⟨[], 2⟩)], [], []⟩
        ≠ .ok (st, outs) := by
  refine ⟨rfl, ?_⟩
  intro st outs h
  have h2 : (Except.error ⟨"d/song1.mp3", "d/song.mp3"⟩
      : Except RenErr (PState × List (String × Outcome))) = .ok (st, outs) := h
  exact Except.noConfusion h2

/-- C2 (amended): the downloader's per-URL worker converts every exception
of its body into a per-item outcome, so `runBatch` yields an outcome for
every one of the N submitted items with unexpected errors mapped to
`Failed`; in the enricher, exceptions inside `enrich_file` are caught per
item (processing the item always completes when no rename is needed), but
the rename step of `process` is outside any handler. -/
theorem C2_batch_isolation :
    (∀ works : List (Except DlErr String), (runBatch works).length = works.length) ∧
    (∀ (works : List (Except DlErr String)) (i : Nat),
      (runBatch works)[i]? = (works[i]?).map download_music) ∧
    (∀ e, download_music (.error (.unexpected e)) = .failed e) ∧
    (∀ r, download_music (.error (.unavailable r)) = .skippedUnavailable r) ∧
    (∀ m, download_music (.ok m) = .success m) ∧
    (∀ (oracle : String → Option (List (String × String)))
       (tagFault : String → Bool) (renameFault : String → String → Bool)
       (root : String) (st : PState) (file : String),
      cleanFn file = file →
      ∃ st1 out, processItem oracle tagFault renameFault root st file = .ok (st1, out)) := by
  refine ⟨fun works => List.length_map works download_music,
    fun works i => List.getElem?_map download_music works i,
    fun e => rfl, fun r => rfl, fun m => rfl, ?_⟩
  intro oracle tagFault renameFault root st file hid
  by_cases hmp3 : lowerEndsWithMp3 file = true
  · by_cases hmem : joinP root file ∈ st.ledger
    · exact ⟨st, (joinP root file, .skipped),
        processItem_eq_skip oracle tagFault renameFault root st file hmp3 hmem⟩
    · have hrs : renameStep renameFault root file (cleanFn file) st.fs
          = .ok (st.fs, joinP root file) := by
        unfold renameStep
        rw [hid]
        simp
      cases hl : lookupF (joinP root file) st.fs with
      | none =>
        refine ⟨⟨st.fs, st.ledger, save_processed st.ledger⟩,
          (joinP root file, .notEnriched), ?_⟩
        rw [processItem_eq_work oracle tagFault renameFault root st file hmp3 hmem,
          hrs]
        simp only []
        rw [hl]
      | some f =>
        by_cases he : (enrich_file oracle tagFault (joinP root file) f).2 = true
        · refine ⟨⟨updateF (joinP root file)
              (enrich_file oracle tagFault (joinP root file) f).1 st.fs,
              markDone (joinP root file) st.ledger,
              save_processed (markDone (joinP root file) st.ledger)⟩,
            (joinP root file, .enriched), ?_⟩
          rw [processItem_eq_work oracle tagFault renameFault root st file hmp3 hmem,
            hrs]
          simp only []
          rw [hl]
          simp only []
          rw [if_pos he]
        · refine ⟨⟨st.fs, st.ledger, save_processed st.ledger⟩,
            (joinP root file, .notEnriched), ?_⟩
          rw [processItem_eq_work oracle tagFault renameFault root st file hmp3 hmem,
            hrs]
          simp only []
          rw [hl]
          simp only []
          rw [if_neg he]
  · have h0 : lowerEndsWithMp3 file = false := by rwa [Bool.not_eq_true] at hmp3
    exact ⟨st, (joinP root file, .notMp3),
      processItem_eq_notMp3 oracle tagFault renameFault root st file h0⟩

/-- C2 witness: the amended statement applied to a concrete one-element
batch whose item raised an unexpected exception, and to a concrete
already-clean filename. -/
theorem C2_witness :
    cleanFn "song.mp3" = "song.mp3" ∧
    (runBatch [.error (.unexpected "boom")]).length
      = ([Except.error (DlErr.unexpected "boom")] : List (Except DlErr String)).length ∧
    download_music (.error (.unexpected "boom")) = .failed "boom" ∧
    ∃ st1 out,
      processItem (fun _ => none) (fun _ => true) (fun _ _ => false) "d"
        ⟨[("d/song.mp3", ⟨[], 0⟩)], [], []⟩ "song.mp3" = .ok (st1, out) :=
  ⟨by decide,
    C2_batch_isolation.1 [.error (.unexpected "boom")],
    C2_batch_isolation.2.2.1 "boom",
    C2_batch_isolation.2.2.2.2.2 (fun _ => none) (fun _ => true) (fun _ _ => false)
      "d" ⟨[("d/song.mp3", ⟨[], 0⟩)], [], []⟩ "song.mp3" (by decide)⟩

theorem fetch_metadata_yt_wins {yt g : Except Unit (Option (List (String × String)))}
    {creds : Bool} {m : List (String × String)} (h : providerStage yt = some m) :
    fetch_metadata yt creds g = ⟨some m, false, false⟩ := by
  unfold fetch_metadata
  rw [h]

theorem fetch_metadata_yt_none {yt g : Except Unit (Option (List (String × String)))}
    (h : providerStage yt = none) :
    fetch_metadata yt true g = ⟨providerStage g, true, true⟩ := by
  unfold fetch_metadata
  rw [h]
  rfl

/-- C3: the resolver's provider order.  If the YouTube stage yields a
non-empty candidate it is returned and the Google stage is never entered;
if the YouTube stage yields nothing, the Google stage is entered (and, with
credentials set, its request attempted); with credentials set, `None` is
returned exactly when both stages produced nothing; and a returned
candidate is never empty. -/
theorem C3_resolver_fallback_order :
    (∀ (yt g : Except Unit (Option (List (String × String))))
       (creds : Bool) (m : List (String × String)),
      providerStage yt = some m →
      fetch_metadata yt creds g = ⟨some m, false, false⟩) ∧
    (∀ yt g, providerStage yt = none →
      fetch_metadata yt true g = ⟨providerStage g, true, true⟩) ∧
    (∀ yt g, (fetch_metadata yt true g).result = none ↔
      providerStage yt = none ∧ providerStage g = none) ∧
    (∀ yt m, providerStage yt = some m → m ≠ []) := by
  refine ⟨?_, ?_, ?_, ?_⟩
  · intro yt g creds m h
    exact fetch_metadata_yt_wins h
  · intro yt g h
    exact fetch_metadata_yt_none h
  · intro yt g
    cases h : providerStage yt with
    | some m =>
      rw [fetch_metadata_yt_wins h]
      simp [h]
    | none =>
      rw [fetch_metadata_yt_none h]
      simp [h]
  · intro yt m h
    unfold providerStage at h
    split at h
    · exact Option.noConfusion h
    · exact Option.noConfusion h
    · rename_i kvs
      split at h
      · exact Option.noConfusion h
      · rename_i hne
        simp only [Option.some.injEq] at h
        rw [← h]
        intro hnil
        rw [hnil] at hne
        exact hne rfl

/-- C3 witness: with a YouTube candidate present the Google stage is not
entered; with no YouTube result and credentials set the Google stage runs. -/
theorem C3_witness :
    providerStage (.ok (some [("title", "t")])) = some [("title", "t")] ∧
    fetch_metadata (.ok (some [("title", "t")])) true (.ok none)
      = ⟨some [("title", "t")], false, false⟩ ∧
    providerStage (.error ()) = none ∧
    fetch_metadata (.error ()) true (.ok none)
      = ⟨providerStage (.ok none), true, true⟩ :=
  ⟨by decide,
    C3_resolver_fallback_order.1 (.ok (some [("title", "t")])) (.ok none) true
      [("title", "t")] (by decide),
    by decide,
    C3_resolver_fallback_order.2.1 (.error ()) (.ok none) (by decide)⟩

/-- C4: ledger durability and write-through.  After `markDone k`, saving and
reloading the ledger reports the key present; the save/load pair round-trips
any duplicate-free key set; `markDone` leaves exactly one entry for the key;
and every successful `process` run keeps the backing file equal to the
serialized in-memory set after each item. -/
theorem C4_ledger_durability :
    (∀ (k : String) (s : List String),
      k ∈ load_processed (some (save_processed (markDone k s)))) ∧
    (∀ s : List String, s.Nodup → load_processed (some (save_processed s)) = s) ∧
    (∀ (k : String) (s : List String), s.Nodup → (markDone k s).count k = 1) ∧
    (∀ (oracle : String → Option (List (String × String)))
       (tagFault : String → Bool) (renameFault : String → String → Bool)
       (root : String) (snapshot : List String) (st st' : PState)
       (outs : List (String × Outcome)),
      st.persisted = save_processed st.ledger →
      processE oracle tagFault renameFault root snapshot st = .ok (st', outs) →
      st'.persisted = save_processed st'.ledger) := by
  refine ⟨?_, ?_, ?_, ?_⟩
  · intro k s
    show k ∈ (markDone k s).dedup
    rw [List.mem_dedup]
    unfold markDone
    split
    · rename_i hmem
      exact hmem
    · exact List.mem_cons_self _ _
  · intro s h
    show s.dedup = s
    exact List.dedup_eq_self.mpr h
  · intro k s h
    exact count_markDone_self h
  · intro oracle tagFault renameFault root snapshot st st' outs hinv hok
    exact processE_write_through oracle tagFault renameFault root snapshot st hinv hok

/-- C4 witness: the durability statements at a concrete key and ledger. -/
theorem C4_witness :
    (["b"] : List String).Nodup ∧
    "a" ∈ load_processed (some (save_processed (markDone "a" ["b"]))) ∧
    load_processed (some (save_processed ["b"])) = ["b"] ∧
    (markDone "a" ["b"]).count "a" = 1 :=
  ⟨by decide,
    C4_ledger_durability.1 "a" ["b"],
    C4_ledger_durability.2.1 ["b"] (by decide),
    C4_ledger_durability.2.2.1 "a" ["b"] (by decide)⟩

/-- C5: genre classification is total and deterministic.  Both classifiers
map every input to exactly one bucket of their fixed taxonomies via
case-insensitive substring matching in fixed table order; the first signal
containing a mapped keyword decides; `"EDM mix"` classifies to the
Electronic bucket (`"Electronic"` in the downloader, `"Electronic & EDM"`
in the renamer); no match or an empty signal list gives `"Other"`. -/
theorem C5_genre_classification :
    map_genre "EDM mix" = "Electronic" ∧
    map_genre "" = "Other" ∧
    scanTexts [] = "Other" ∧
    determine_genre none = "Other" ∧
    scanTexts ["EDM mix"] = "Electronic & EDM" ∧
    (∀ g, map_genre g ∈ downloaderBuckets) ∧
    (∀ ts, scanTexts ts ∈ renamerBuckets) ∧
    (∀ t rest kv, keywordHit t = some kv → scanTexts (t :: rest) = kv.2) ∧
    (∀ t rest, keywordHit t = none → scanTexts (t :: rest) = scanTexts rest) ∧
    (∀ ts, (∀ t ∈ ts, keywordHit t = none) → scanTexts ts = "Other") ∧
    (∀ g, genre_map.find? (fun kv => pyInS kv.1 (pyLowerS g)) = none →
      map_genre g = "Other") := by
  refine ⟨by decide, by decide, rfl, rfl, by decide, map_genre_mem, scanTexts_mem,
    ?_, ?_, ?_, ?_⟩
  · intro t rest kv h
    show (match keywordHit t with | some kv => kv.2 | none => scanTexts rest) = kv.2
    rw [h]
  · intro t rest h
    show (match keywordHit t with | some kv => kv.2 | none => scanTexts rest)
        = scanTexts rest
    rw [h]
  · intro ts h
    induction ts with
    | nil => rfl
    | cons t rest ih =>
      show (match keywordHit t with | some kv => kv.2 | none => scanTexts rest)
          = "Other"
      rw [h t (List.mem_cons_self _ _)]
      exact ih (fun u hu => h u (List.mem_cons_of_mem _ hu))
  · intro g h
    unfold map_genre
    split
    · rfl
    · rw [h]

/-- C5 witness: the no-match clauses applied at a concrete signal. -/
theorem C5_witness :
    (∀ t ∈ (["zzz"] : List String), keywordHit t = none) ∧
    scanTexts ["zzz"] = "Other" ∧
    genre_map.find? (fun kv => pyInS kv.1 (pyLowerS "zzz")) = none ∧
    map_genre "zzz" = "Other" :=
  ⟨by decide,
    C5_genre_classification.2.2.2.2.2.2.2.2.2.1 ["zzz"] (by decide),
    by decide,
    C5_genre_classification.2.2.2.2.2.2.2.2.2.2 "zzz" (by decide)⟩

/-- C6 counterexample: the normalizer is not idempotent on every input.
`clean_filename("42!.mp3")` empties the base name, yielding `".mp3"`, and
Python's `splitext` treats `".mp3"` as a dotfile with no extension, so a
second application yields `"mp"`. -/
theorem C6_counterexample :
    cleanFn "42!.mp3" = ".mp3" ∧
    cleanFn ".mp3" = "mp" ∧
    cleanFn (cleanFn "42!.mp3") ≠ cleanFn "42!.mp3" :=
  ⟨by decide, by decide, by decide⟩

/-- C6 (amended): the normalizer is idempotent on every input whose cleaned
base name is non-empty — `normalize(normalize(x)) = normalize(x)` for all
such `x`, for any translator — and `normalize("Track_42!.mp3")` yields the
letters-only base `"Track"` with the `.mp3` extension reattached. -/
theorem C6_normalizer_idempotent :
    (∀ (tr : List Char → Option (List Char)) (s : String),
      cleanBaseName s.data ≠ [] →
      clean_filename tr (clean_filename tr s) = clean_filename tr s) ∧
    cleanFn "Track_42!.mp3" = "Track.mp3" := by
  constructor
  · intro tr s h
    exact congrArg String.mk (cleanCore_idem tr s.data h)
  · decide

/-- C6 witness: idempotence at `"Track_42!.mp3"`, whose cleaned base name
`"Track"` is non-empty. -/
theorem C6_witness :
    cleanBaseName ("Track_42!.mp3" : String).data ≠ [] ∧
    cleanFn (cleanFn "Track_42!.mp3") = cleanFn "Track_42!.mp3" :=
  ⟨by decide,
    C6_normalizer_idempotent.1 (fun _ => none) "Track_42!.mp3" (by decide)⟩

/-- C7: in the enricher's rename step, when the cleaned name differs and a
file occupies the target path, the occupying file is removed and the rename
succeeds: afterwards the source file's record sits at the target path, the
source path is empty, and every other path is untouched. -/
theorem C7_rename_displaces_target
    (renameFault : String → String → Bool) (root file cleaned : String)
    (fs : List (String × MFile)) (f g : MFile)
    (hne : cleaned ≠ file)
    (hsrc : lookupF (joinP root file) fs = some f)
    (htgt : lookupF (joinP root cleaned) fs = some g)
    (hfault : renameFault (joinP root file) (joinP root cleaned) = false) :
    ∃ fs', renameStep renameFault root file cleaned fs
        = .ok (fs', joinP root cleaned) ∧
      lookupF (joinP root cleaned) fs' = some f ∧
      lookupF (joinP root file) fs' = none ∧
      (∀ q, q ≠ joinP root cleaned → q ≠ joinP root file →
        lookupF q fs' = lookupF q fs) := by
  have hfullne : joinP root file ≠ joinP root cleaned := fun h =>
    hne (joinP_inj h).symm
  refine ⟨(joinP root cleaned, f) ::
    removeF (joinP root file) (removeF (joinP root cleaned) fs), ?_, ?_, ?_, ?_⟩
  · unfold renameStep
    rw [if_neg (by simp [hne]), if_neg (by simp [hfault])]
    rw [if_pos (by rw [htgt]; rfl :
      (lookupF (joinP root cleaned) fs).isSome = true)]
    rw [lookupF_removeF_ne (Ne.symm hfullne), hsrc]
  · exact lookupF_cons_self
  · rw [lookupF_cons_ne (Ne.symm hfullne)]
    exact lookupF_removeF_self _ _
  · intro q hq1 hq2
    rw [lookupF_cons_ne (fun h => hq1 h.symm),
      lookupF_removeF_ne (fun h => hq2 h.symm),
      lookupF_removeF_ne (fun h => hq1 h.symm)]

/-- C7 witness: `b!.mp3` cleans to `b.mp3`, which exists; the occupant is
deleted and the rename lands the source file at the target. -/
theorem C7_witness :
    (("b.mp3" : String) ≠ "b!.mp3" ∧
      lookupF "d/b!.mp3"
        [("d/b!.mp3", (⟨[], 1⟩ : MFile)), ("d/b.mp3", (⟨[], 2⟩ : MFile))]
        = some ⟨[], 1⟩ ∧
      lookupF "d/b.mp3"
        [("d/b!.mp3", (⟨[], 1⟩ : MFile)), ("d/b.mp3", (⟨[], 2⟩ : MFile))]
        = some ⟨[], 2⟩) ∧
    ∃ fs', renameStep (fun _ _ => false) "d" "b!.mp3" "b.mp3"
        [("d/b!.mp3", ⟨[], 1⟩), ("d/b.mp3", ⟨[], 2⟩)]
        = .ok (fs', joinP "d" "b.mp3") ∧
      lookupF (joinP "d" "b.mp3") fs' = some ⟨[], 1⟩ ∧
      lookupF (joinP "d" "b!.mp3") fs' = none ∧
      (∀ q, q ≠ joinP "d" "b.mp3" → q ≠ joinP "d" "b!.mp3" →
        lookupF q fs'
          = lookupF q [("d/b!.mp3", ⟨[], 1⟩), ("d/b.mp3", ⟨[], 2⟩)]) :=
  ⟨⟨by decide, by decide, by decide⟩,
    C7_rename_displaces_target (fun _ _ => false) "d" "b!.mp3" "b.mp3"
      [("d/b!.mp3", ⟨[], 1⟩), ("d/b.mp3", ⟨[], 2⟩)] ⟨[], 1⟩ ⟨[], 2⟩
      (by decide) (by decide) (by decide) rfl⟩

/-- C8: when the Google credentials are unset, the resolver's fallback stage
never attempts the request, the outcome does not depend on what the provider
would have returned, and the result equals that of a credentialed provider
returning nothing. -/
theorem C8_missing_credentials_skip :
    ∀ (yt g : Except Unit (Option (List (String × String)))),
      (fetch_metadata yt false g).googleRequested = false ∧
      fetch_metadata yt false g = fetch_metadata yt false (.ok none) ∧
      (fetch_metadata yt false g).result
        = (fetch_metadata yt true (.ok none)).result := by
  intro yt g
  unfold fetch_metadata
  cases h : providerStage yt with
  | some m => exact ⟨rfl, rfl, rfl⟩
  | none => exact ⟨rfl, rfl, rfl⟩

/-- C9: `clean_filename` never reaches its translation branch: after the
ASCII-token filter the base name is all-ASCII, so the non-ASCII guard is
false for every input; the result is independent of the translator, and the
returned base name contains only ASCII letters and spaces. -/
theorem C9_translation_unreachable :
    ∀ (tr tr' : List Char → Option (List Char)) (s : String),
      cleanTranslationUsed s.data = false ∧
      clean_filename tr s = clean_filename tr' s ∧
      clean_filename tr s = ⟨cleanBaseName s.data ++ (splitext s.data).2⟩ ∧
      (∀ c ∈ cleanBaseName s.data, isAsciiLetterB c = true ∨ c = ' ') := by
  intro tr tr' s
  exact ⟨cleanTranslationUsed_false _,
    congrArg String.mk (cleanCore_tr_irrel tr tr' s.data),
    congrArg String.mk (cleanCore_eq tr s.data),
    cleanBaseName_chars _⟩

/-- C10: in the renamer and the download post-processor, an occupied
destination path makes the operation a no-op: the source file stays at its
original path and the existing destination file is neither deleted nor
overwritten. -/
theorem C10_occupied_target_skips :
    (∀ (i : InfoR) (title filepath base : String) (fs : List (String × MFile))
       (g : MFile),
      is_sensible_filename ⟨(splitext (baseNameOf filepath).data).1⟩ = false →
      i.title = some title →
      sanitize_filename title ≠ "" →
      filepath ≠ renTargetPath i title base
        ⟨(splitext (baseNameOf filepath).data).2⟩ →
      lookupF (renTargetPath i title base
        ⟨(splitext (baseNameOf filepath).data).2⟩) fs = some g →
      process_music_file (some i) filepath base fs = (.targetExists, fs)) ∧
    (∀ (info : PPInfo) (fp : String) (fs : List (String × MFile)) (f g : MFile),
      info.filepath = some fp →
      lookupF fp fs = some f →
      fp ≠ ppTarget info fp →
      lookupF (ppTarget info fp) fs = some g →
      sanitizeFilenamePP_run info fs = (info, fs)) := by
  constructor
  · intro i title filepath base fs g hsens htitle hst hne hocc
    unfold process_music_file
    rw [if_neg (by simp [hsens])]
    simp only []
    rw [htitle]
    simp only []
    rw [if_neg hst, if_neg hne, if_pos (by rw [hocc]; rfl)]
  · intro info fp fs f g hfp hlookfp hne hocc
    unfold sanitizeFilenamePP_run
    rw [hfp]
    simp only []
    rw [if_neg (by rw [hlookfp]; simp), if_neg hne, if_pos (by rw [hocc]; rfl)]

/-- C10 witness: occupied targets in both variants at concrete inputs. -/
theorem C10_witness :
    process_music_file (some ⟨none, none, some "My Song", none⟩)
        "music/xy.mp3" "music"
        [("music/xy.mp3", ⟨[], 0⟩), ("music/Other/My Song.mp3", ⟨[], 1⟩)]
      = (.targetExists,
         [("music/xy.mp3", ⟨[], 0⟩), ("music/Other/My Song.mp3", ⟨[], 1⟩)]) ∧
    sanitizeFilenamePP_run ⟨some "music/a b.mp3", "a:b", "vid1"⟩
        [("music/a b.mp3", ⟨[], 0⟩), ("music/ab.mp3", ⟨[], 1⟩)]
      = (⟨some "music/a b.mp3", "a:b", "vid1"⟩,
         [("music/a b.mp3", ⟨[], 0⟩), ("music/ab.mp3", ⟨[], 1⟩)]) :=
  ⟨C10_occupied_target_skips.1 ⟨none, none, some "My Song", none⟩ "My Song"
      "music/xy.mp3" "music"
      [("music/xy.mp3", ⟨[], 0⟩), ("music/Other/My Song.mp3", ⟨[], 1⟩)]
      ⟨[], 1⟩ (by decide) rfl (by decide) (by decide) (by decide),
    C10_occupied_target_skips.2 ⟨some "music/a b.mp3", "a:b", "vid1"⟩
      "music/a b.mp3"
      [("music/a b.mp3", ⟨[], 0⟩), ("music/ab.mp3", ⟨[], 1⟩)]
      ⟨[], 0⟩ ⟨[], 1⟩ rfl (by decide) (by decide) (by decide)⟩

end MusicPipeline

